import Mathlib

/-!
Verification development for the tm1-blackhawk delta-tracking streaming
synchronizer.  The Go sources are embedded shallowly:

* `Jtok` models the tokens returned by Go's `json.Decoder.Token`
  (delimiters, strings, integers, booleans, null); `JsonValue` is the
  JSON value tree and `tokens` its token stream.
* `parseTransactionLogs` embeds `(*JSONReviver).ParseTransactionLogs`
  from `utils/json_reviver.go`, operating on a token list exactly as the
  Go code drives the decoder: `Token()` pops one token, `More()` peeks
  whether the next token is a closing delimiter (Go's `More` inspects the
  next non-space byte for `]` or `}`), and `Decode` reads one complete
  value (`readValue`).
* `forwardStep` / `runForwarder` / `processTransactionLogEntries` embed
  the re-streaming forwarder of the tracker's `main.go`.
* `trackCollection` / `validateStatusCode` embed the poll loop
  `TrackCollection` and `ValidateStatusCode` of the OData client.
-/

/-- A token as surfaced by Go's `json.Decoder.Token`: a delimiter, a string,
a number (restricted to integers here; the claims only exercise integral
numbers), a boolean, or null. -/
inductive Jtok where
  | lbrace | rbrace | lbrack | rbrack
  | str (s : String)
  | num (n : Int)
  | boolean (b : Bool)
  | null
deriving DecidableEq, Repr

/-- A JSON value tree (numbers restricted to integers). -/
inductive JsonValue where
  | obj (members : List (String × JsonValue))
  | arr (elems : List JsonValue)
  | str (s : String)
  | num (n : Int)
  | boolean (b : Bool)
  | null

mutual
/-- The token stream of a JSON value, in document order. -/
def tokens : JsonValue → List Jtok
  | .obj ms => Jtok.lbrace :: tokensM ms ++ [Jtok.rbrace]
  | .arr vs => Jtok.lbrack :: tokensL vs ++ [Jtok.rbrack]
  | .str s => [Jtok.str s]
  | .num n => [Jtok.num n]
  | .boolean b => [Jtok.boolean b]
  | .null => [Jtok.null]

/-- Token stream of an object's member list. -/
def tokensM : List (String × JsonValue) → List Jtok
  | [] => []
  | (k, v) :: ms => Jtok.str k :: tokens v ++ tokensM ms

/-- Token stream of an array's element list. -/
def tokensL : List JsonValue → List Jtok
  | [] => []
  | v :: vs => tokens v ++ tokensL vs
end

mutual
/-- Fueled reader of one complete JSON value from a token stream; models
`json.Decoder.Decode` reading the next value.  Returns the value and the
remaining tokens, or `none` on malformed/truncated input. -/
def readValueF : Nat → List Jtok → Option (JsonValue × List Jtok)
  | 0, _ => none
  | _ + 1, [] => none
  | f + 1, t :: rest =>
    match t with
    | Jtok.str s => some (.str s, rest)
    | Jtok.num n => some (.num n, rest)
    | Jtok.boolean b => some (.boolean b, rest)
    | Jtok.null => some (.null, rest)
    | Jtok.lbrack => (readListF f rest).map fun p => (JsonValue.arr p.1, p.2)
    | Jtok.lbrace => (readObjF f rest).map fun p => (JsonValue.obj p.1, p.2)
    | Jtok.rbrace => none
    | Jtok.rbrack => none

/-- Fueled reader of the elements of an array (cursor just after `[`). -/
def readListF : Nat → List Jtok → Option (List JsonValue × List Jtok)
  | 0, _ => none
  | _ + 1, Jtok.rbrack :: rest => some ([], rest)
  | f + 1, ts =>
    match readValueF f ts with
    | none => none
    | some (v, rest) =>
      match readListF f rest with
      | none => none
      | some (vs, rest') => some (v :: vs, rest')

/-- Fueled reader of the members of an object (cursor just after an
opening brace). -/
def readObjF : Nat → List Jtok → Option (List (String × JsonValue) × List Jtok)
  | 0, _ => none
  | _ + 1, Jtok.rbrace :: rest => some ([], rest)
  | f + 1, Jtok.str k :: ts =>
    match readValueF f ts with
    | none => none
    | some (v, rest) =>
      match readObjF f rest with
      | none => none
      | some (ms, rest') => some ((k, v) :: ms, rest')
  | _ + 1, _ => none
end

/-- Read one complete JSON value off the front of a token stream (enough
fuel is always available: every step consumes at least one token). -/
def readValue (ts : List Jtok) : Option (JsonValue × List Jtok) :=
  readValueF ts.length ts

/-- The `TransactionLogEntry` struct of the OData client (`client.go`),
with Go's `encoding/json` mapping: `Tuple []string` distinguishes the nil
slice (`none`, marshalled as `null`) from a present one; the three
`interface{}` fields hold an arbitrary JSON value (`null` when unset). -/
structure TransactionLogEntry where
  ID : Int
  ChangeSetID : String
  TimeStamp : String
  ReplicationTime : String
  User : String
  Cube : String
  Tuple : Option (List String)
  OldValue : JsonValue
  NewValue : JsonValue
  StatusMessage : JsonValue

/-- The zero value of `TransactionLogEntry` (Go's `TransactionLogEntry{}`). -/
def defaultEntry : TransactionLogEntry :=
  ⟨0, "", "", "", "", "", none, .null, .null, .null⟩

/-- Unmarshal a JSON array into `[]string`: every element must be a string
(a `null` element leaves the zero value `""`). -/
def decodeStringList : List JsonValue → Option (List String)
  | [] => some []
  | JsonValue.str s :: vs => (decodeStringList vs).map (s :: ·)
  | JsonValue.null :: vs => (decodeStringList vs).map ("" :: ·)
  | _ => none

/-- Apply one JSON object member to a `TransactionLogEntry` being decoded,
following Go's `encoding/json` field mapping: a tagged field takes a value
of the matching type, `null` leaves the field unchanged, a type mismatch is
an error (`none`), and unknown member names are ignored. -/
def setField (e : TransactionLogEntry) : String × JsonValue → Option TransactionLogEntry
  | ("ID", JsonValue.num n) => some { e with ID := n }
  | ("ID", JsonValue.null) => some e
  | ("ID", _) => none
  | ("ChangeSetID", JsonValue.str s) => some { e with ChangeSetID := s }
  | ("ChangeSetID", JsonValue.null) => some e
  | ("ChangeSetID", _) => none
  | ("TimeStamp", JsonValue.str s) => some { e with TimeStamp := s }
  | ("TimeStamp", JsonValue.null) => some e
  | ("TimeStamp", _) => none
  | ("ReplicationTime", JsonValue.str s) => some { e with ReplicationTime := s }
  | ("ReplicationTime", JsonValue.null) => some e
  | ("ReplicationTime", _) => none
  | ("User", JsonValue.str s) => some { e with User := s }
  | ("User", JsonValue.null) => some e
  | ("User", _) => none
  | ("Cube", JsonValue.str s) => some { e with Cube := s }
  | ("Cube", JsonValue.null) => some e
  | ("Cube", _) => none
  | ("Tuple", JsonValue.arr vs) => (decodeStringList vs).map fun l => { e with Tuple := some l }
  | ("Tuple", JsonValue.null) => some e
  | ("Tuple", _) => none
  | ("OldValue", v) => some { e with OldValue := v }
  | ("NewValue", v) => some { e with NewValue := v }
  | ("StatusMessage", v) => some { e with StatusMessage := v }
  | (_, _) => some e

/-- Fold the members of a JSON object into a `TransactionLogEntry`. -/
def decodeFields (e : TransactionLogEntry) : List (String × JsonValue) → Option TransactionLogEntry
  | [] => some e
  | m :: ms =>
    match setField e m with
    | none => none
    | some e' => decodeFields e' ms

/-- Unmarshal one JSON value into a `TransactionLogEntry`
(Go: `decoder.Decode(&txnLog)`): an object is decoded field by field,
`null` is a successful no-op leaving the zero struct, and any other value
is a decode error. -/
def decodeTxnLogEntry : JsonValue → Option TransactionLogEntry
  | JsonValue.obj ms => decodeFields defaultEntry ms
  | JsonValue.null => some defaultEntry
  | _ => none

/-- Marshal a `TransactionLogEntry` back to JSON
(Go: `json.NewEncoder(...).Encode(txnLogEntry)`), with the struct's fields
in declaration order; a nil `Tuple` marshals as `null`. -/
def encodeTxnLogEntryJson (e : TransactionLogEntry) : JsonValue :=
  .obj [("ID", .num e.ID), ("ChangeSetID", .str e.ChangeSetID),
        ("TimeStamp", .str e.TimeStamp), ("ReplicationTime", .str e.ReplicationTime),
        ("User", .str e.User), ("Cube", .str e.Cube),
        ("Tuple", match e.Tuple with
                  | none => JsonValue.null
                  | some l => JsonValue.arr (l.map JsonValue.str)),
        ("OldValue", e.OldValue), ("NewValue", e.NewValue),
        ("StatusMessage", e.StatusMessage)]

/-- The `TransactionLogContainer` handed to the parse callback: either one
entry (a Record) or, in the final unit, the remembered delta link.  (The
struct's declaring file is not among the provided sources; its two fields
are determined by every use in `json_reviver.go` and the tracker's
`main.go`, and by the spec's Parse Result Unit.) -/
structure TransactionLogContainer where
  transactionLogEntry : Option TransactionLogEntry
  deltaLink : String

/-- Container carrying one Record (`TransactionLogContainer{TransactionLogEntry: &txnLog}`). -/
def recCont (e : TransactionLogEntry) : TransactionLogContainer := ⟨some e, ""⟩

/-- The final container (`TransactionLogContainer{DeltaLink: deltaLink}`). -/
def finalCont (dl : String) : TransactionLogContainer := ⟨none, dl⟩

/-- Outcome of one parse: the sequence of callback invocations (in order)
and the returned error, if any.  Error strings are the messages of the Go
code; a read past the end of the stream is Go's `io.EOF`, rendered "EOF". -/
structure ParseOut where
  calls : List TransactionLogContainer
  result : Except String Unit

/-- Go's `json.Decoder.More`: peek whether the next token is something
other than a closing delimiter (it inspects the next byte for `]`/`}`). -/
def decoderMore : List Jtok → Bool
  | [] => false
  | Jtok.rbrace :: _ => false
  | Jtok.rbrack :: _ => false
  | _ :: _ => true

/-- `deltaLink` update performed by `r.decoder.Decode(&deltaLink)` with the
error ignored: a string value replaces the remembered link; any other value
(a failed unmarshal) and `null` (a no-op unmarshal) leave it unchanged. -/
def decodeStringInto (dl : String) : JsonValue → String
  | JsonValue.str s => s
  | _ => dl

/-- The inner array loop of `ParseTransactionLogs` (fueled): decode
elements while `More()`, then consume the array-close delimiter.  Returns
the entries delivered to the callback and either the remaining tokens
after `]` or the error that aborted the loop. -/
def readEntriesF : Nat → List Jtok → List TransactionLogEntry × Except String (List Jtok)
  | 0, _ => ([], .error "out of fuel")
  | f + 1, ts =>
    if decoderMore ts then
      match readValue ts with
      | none => ([], .error "unable to decode transaction log entry")
      | some (v, rest) =>
        match decodeTxnLogEntry v with
        | none => ([], .error "unable to decode transaction log entry")
        | some e =>
          let pr := readEntriesF f rest
          (e :: pr.1, pr.2)
    else
      match ts with
      | [] => ([], .error "EOF")
      | Jtok.rbrack :: rest => ([], .ok rest)
      | _ => ([], .error "JSON array end delimiter not found")

/-- The outer member loop of `ParseTransactionLogs` (fueled), carrying the
remembered delta link and the callback invocations so far.  Each iteration
reads one token: the continuation field name triggers `Decode(&deltaLink)`
(error ignored) and then continues (its name is never "value"); the
collection field name expects `[` and runs the inner array loop; any other
token just continues.  When `More()` is false the object-close delimiter is
consumed and the final callback fires. -/
def loopF : Nat → List Jtok → String → List TransactionLogContainer → ParseOut
  | 0, _, _, acc => ⟨acc, .error "out of fuel"⟩
  | f + 1, ts, dl, acc =>
    if decoderMore ts then
      match ts with
      | [] => ⟨acc, .error "EOF"⟩
      | t :: rest =>
        if t = Jtok.str "@odata.deltaLink" then
          match readValue rest with
          | some (v, rest') => loopF f rest' (decodeStringInto dl v) acc
          | none => loopF f rest dl acc
        else if t = Jtok.str "value" then
          match rest with
          | Jtok.lbrack :: rest' =>
            let pr := readEntriesF (rest'.length + 1) rest'
            match pr.2 with
            | .ok rest'' => loopF f rest'' dl (acc ++ pr.1.map recCont)
            | .error e => ⟨acc ++ pr.1.map recCont, .error e⟩
          | [] => ⟨acc, .error "EOF"⟩
          | _ :: _ => ⟨acc, .error "JSON array start delimiter not found"⟩
        else loopF f rest dl acc
    else
      match ts with
      | [] => ⟨acc, .error "EOF"⟩
      | Jtok.rbrace :: _ =>
        ⟨acc ++ [finalCont dl], .ok ()⟩
      | _ :: _ => ⟨acc, .error "JSON object end delimiter not found"⟩

/-- `(*JSONReviver).ParseTransactionLogs` of `utils/json_reviver.go` over a
token stream: expect the object-open delimiter, run the member loop, and
(inside `loopF`) check the object-close delimiter before the final callback. -/
def parseTransactionLogs (ts : List Jtok) : ParseOut :=
  match ts with
  | [] => ⟨[], .error "EOF"⟩
  | Jtok.lbrace :: rest => loopF (rest.length + 2) rest "" []
  | _ :: _ => ⟨[], .error "JSON object start delimiter not found"⟩

/-- Escape one character for a JSON string literal (quote and backslash;
the control/HTML escapes of Go's encoder are not exercised by any input in
this development). -/
def escapeChar (c : Char) : String :=
  if c = '"' then "\\\"" else if c = '\\' then "\\\\" else String.singleton c

/-- Escape a string for a JSON string literal. -/
def escapeString (s : String) : String :=
  String.join (s.toList.map escapeChar)

mutual
/-- Compact textual rendering of a JSON value, as Go's `json.Encoder`
produces it (before the trailing newline `Encode` adds). -/
def encodeJson : JsonValue → String
  | .obj ms => "\x7b" ++ encodeMembers ms ++ "\x7d"
  | .arr vs => "[" ++ encodeElems vs ++ "]"
  | .str s => "\"" ++ escapeString s ++ "\""
  | .num n => toString n
  | .boolean b => if b then "true" else "false"
  | .null => "null"

/-- Rendering of an object's members. -/
def encodeMembers : List (String × JsonValue) → String
  | [] => ""
  | [(k, v)] => "\"" ++ escapeString k ++ "\":" ++ encodeJson v
  | (k, v) :: ms => "\"" ++ escapeString k ++ "\":" ++ encodeJson v ++ "," ++ encodeMembers ms

/-- Rendering of an array's elements. -/
def encodeElems : List JsonValue → String
  | [] => ""
  | [v] => encodeJson v
  | v :: vs => encodeJson v ++ "," ++ encodeElems vs
end

/-- State of the re-streaming forwarder in `processTransactionLogEntries`:
how many times the open-framing branch ran (`count`), the bytes written to
the output stream so far (`out`), the values sent on `deltaLinkChannel`
(`sends`), whether `outputStream.Close()` ran (`closed`), whether the
drain goroutine was started (`drainArmed`) and whether the streaming POST
goroutine was started (`postArmed`). -/
structure FwdState where
  count : Nat
  out : String
  sends : List String
  closed : Bool
  drainArmed : Bool
  postArmed : Bool

/-- The initial forwarder state. -/
def initFwd : FwdState := ⟨0, "", [], false, false, false⟩

/-- One invocation of the callback passed to `ParseTransactionLogs` by
`processTransactionLogEntries` (the tracker's `main.go`): on an entry,
write the array-open framing on the first Record (arming the POST) or a
separator otherwise, then the encoded entry plus the newline `Encode`
appends; on a non-empty delta link, write the array-close framing (or arm
the drain goroutine if no Record was written), close the stream and send
the delta link on the channel. -/
def forwardStep (st : FwdState) (c : TransactionLogContainer) : FwdState :=
  let st1 :=
    match c.transactionLogEntry with
    | some e =>
      let st0 :=
        if st.count = 0 then
          { st with postArmed := true, out := st.out ++ "\x7b \"value\": [ ",
                    count := st.count + 1 }
        else
          { st with out := st.out ++ ", " }
      { st0 with out := st0.out ++ encodeJson (encodeTxnLogEntryJson e) ++ "\n" }
    | none => st
  if c.deltaLink ≠ "" then
    let st2 :=
      if st1.count > 0 then { st1 with out := st1.out ++ "] " }
      else { st1 with drainArmed := true }
    { st2 with closed := true, sends := st2.sends ++ [c.deltaLink] }
  else st1

/-- Run the forwarder callback over a parse's callback sequence. -/
def runForwarder (cs : List TransactionLogContainer) : FwdState :=
  cs.foldl forwardStep initFwd

/-- `processTransactionLogEntries` of the tracker's `main.go` over a token
stream.  The function's value is `return "", <-deltaLinkChannel`: it
returns only if some callback sent on the channel, taking the first value
sent.  `none` models the two ways the call never produces a value: the
parse goroutine hit an error (`log.Fatal` terminates the process), or the
parse finished without any channel send, leaving the receive blocked
forever. -/
def processTransactionLogEntries (ts : List Jtok) : Option (String × String) :=
  let po := parseTransactionLogs ts
  let st := runForwarder po.calls
  match st.sends with
  | [] => none
  | d :: _ => some ("", d)

/-- Observable events of the poll loop: issuing a GET against a URL, and
sleeping for the configured interval. -/
inductive PollEvent where
  | get (url : String)
  | sleep
deriving DecidableEq, Repr

/-- `(*Client).TrackCollection` of the OData client, driven by a script of
HTTP responses, each given as its status code plus the pair the response
processor returns for its body.  The loop GETs the current URL, processes
the response (the status code is never inspected by the code), follows a
non-empty next link immediately, otherwise sleeps and follows a non-empty
delta link, and otherwise stops.  The result is the event trace; a final
GET whose response is not scripted ends the trace. -/
def trackCollection (url : String) : List (Nat × String × String) → List PollEvent
  | [] => if url = "" then [] else [PollEvent.get url]
  | (_, nextLink, deltaLink) :: rs =>
    if url = "" then []
    else
      PollEvent.get url ::
        (if nextLink ≠ "" then trackCollection nextLink rs
         else if deltaLink ≠ "" then PollEvent.sleep :: trackCollection deltaLink rs
         else [])

/-- An HTTP response as consumed by `ValidateStatusCode`: the numeric
status code, the status line text, and the body. -/
structure HttpResponse where
  statusCode : Nat
  status : String
  body : String

/-- `ValidateStatusCode` of the OData client: when the response's status
code differs from the single expected code, `log.Fatal` fires with the
caller's message, the status line and the response body (`some log`);
otherwise nothing happens (`none`). -/
def validateStatusCode (resp : HttpResponse) (statusCode : Nat) (logFmt : String) :
    Option String :=
  if resp.statusCode ≠ statusCode then
    some (logFmt ++ "\r\nServer responded with: " ++ resp.status ++ "\r\n" ++ resp.body)
  else none

/-- Delimiter-balance check for a byte sequence: scans the characters,
tracking string literals (with backslash escapes) and a stack of open
`\x7b`/`[` delimiters.  Balanced, properly nested delimiters with the scan
ending outside a string are a necessary condition for well-formed JSON. -/
def balancedAux : List Char → List Char → Bool → Bool → Bool
  | [], stack, inStr, _ => stack.isEmpty && !inStr
  | _ :: cs, stack, true, true => balancedAux cs stack true false
  | c :: cs, stack, true, false =>
    if c = '\\' then balancedAux cs stack true true
    else if c = '"' then balancedAux cs stack false false
    else balancedAux cs stack true false
  | c :: cs, stack, false, _ =>
    if c = '"' then balancedAux cs stack true false
    else if c = '\x7b' then balancedAux cs ('\x7b' :: stack) false false
    else if c = '[' then balancedAux cs ('[' :: stack) false false
    else if c = '\x7d' then
      match stack with
      | '\x7b' :: stack' => balancedAux cs stack' false false
      | _ => false
    else if c = ']' then
      match stack with
      | '[' :: stack' => balancedAux cs stack' false false
      | _ => false
    else balancedAux cs stack false false

/-- Whether a byte sequence has balanced, properly nested JSON delimiters. -/
def balancedDelims (s : String) : Bool :=
  balancedAux s.toList [] false false

/-- A member of the response body's root object, classified by the two
field names `ParseTransactionLogs` recognizes. -/
inductive RootMember where
  | value (elems : List JsonValue)
  | delta (v : JsonValue)
  | other (name : String) (v : JsonValue)

/-- Token stream of one root member. -/
def memberTokens : RootMember → List Jtok
  | .value es => Jtok.str "value" :: Jtok.lbrack :: tokensL es ++ [Jtok.rbrack]
  | .delta v => Jtok.str "@odata.deltaLink" :: tokens v
  | .other name v => Jtok.str name :: tokens v

/-- Token stream of a root member list. -/
def membersTokens : List RootMember → List Jtok
  | [] => []
  | m :: ms => memberTokens m ++ membersTokens ms

/-- Token stream of a whole response body with the given root members. -/
def bodyTokens (ms : List RootMember) : List Jtok :=
  Jtok.lbrace :: membersTokens ms ++ [Jtok.rbrace]

/-- Whether a JSON value is a scalar (not an object or array). -/
def isScalar : JsonValue → Bool
  | .obj _ => false
  | .arr _ => false
  | _ => true

/-- The root members the parser handles as intended: collection members
whose elements all decode, the continuation member with any value, and
unrelated members whose single value token neither closes a composite nor
collides with a recognized field name (the parser scans unrelated members
token by token, so a non-scalar value or a token equal to "value" or
"@odata.deltaLink" changes its behavior). -/
def memberOK : RootMember → Prop
  | .value es => ∀ v ∈ es, (decodeTxnLogEntry v).isSome = true
  | .delta _ => True
  | .other name v =>
    name ≠ "value" ∧ name ≠ "@odata.deltaLink" ∧ isScalar v = true ∧
      v ≠ JsonValue.str "value" ∧ v ≠ JsonValue.str "@odata.deltaLink"

/-- The entries decoded from the collection members of a body, in order. -/
def deliveredOf : List RootMember → List TransactionLogEntry
  | [] => []
  | .value es :: ms => es.filterMap decodeTxnLogEntry ++ deliveredOf ms
  | _ :: ms => deliveredOf ms

/-- The remembered delta link after processing a body's members, starting
from `dl` (each continuation member updates it via `decodeStringInto`). -/
def deltaAfter (dl : String) : List RootMember → String
  | [] => dl
  | .delta v :: ms => deltaAfter (decodeStringInto dl v) ms
  | _ :: ms => deltaAfter dl ms

/-! ### Basic token-stream facts -/

theorem tokens_length_pos (v : JsonValue) : 1 ≤ (tokens v).length := by
  cases v <;> simp [tokens]

theorem decoderMore_tokens (v : JsonValue) (rest : List Jtok) :
    decoderMore (tokens v ++ rest) = true := by
  cases v <;> simp [tokens, decoderMore]

/-! ### Round trip of the value reader over token streams -/

theorem readRound (f : Nat) :
    (∀ v rest, (tokens v).length ≤ f →
      readValueF f (tokens v ++ rest) = some (v, rest)) ∧
    (∀ es rest, (tokensL es).length + 1 ≤ f →
      readListF f (tokensL es ++ Jtok.rbrack :: rest) = some (es, rest)) ∧
    (∀ ms rest, (tokensM ms).length + 1 ≤ f →
      readObjF f (tokensM ms ++ Jtok.rbrace :: rest) = some (ms, rest)) := by
  induction f with
  | zero =>
    refine ⟨fun v rest h => ?_, fun es rest h => ?_, fun ms rest h => ?_⟩
    · exact absurd h (by simpa using Nat.not_le.mpr (tokens_length_pos v))
    · omega
    · omega
  | succ f ih =>
    refine ⟨fun v rest h => ?_, fun es rest h => ?_, fun ms rest h => ?_⟩
    · cases v with
      | obj ms =>
        have hb : (tokensM ms).length + 1 ≤ f := by
          simpa [tokens] using h
        simp [tokens, readValueF, ih.2.2 ms rest hb]
      | arr vs =>
        have hb : (tokensL vs).length + 1 ≤ f := by
          simpa [tokens] using h
        simp [tokens, readValueF, ih.2.1 vs rest hb]
      | str s => simp [tokens, readValueF]
      | num n => simp [tokens, readValueF]
      | boolean b => simp [tokens, readValueF]
      | null => simp [tokens, readValueF]
    · cases es with
      | nil => simp [tokensL, readListF]
      | cons v vs =>
        have h1 : (tokens v).length ≤ f := by
          have := tokens_length_pos v
          simp [tokensL] at h
          omega
        have h2 : (tokensL vs).length + 1 ≤ f := by
          have := tokens_length_pos v
          simp [tokensL] at h
          omega
        have hv := ih.1 v (tokensL vs ++ Jtok.rbrack :: rest) h1
        have hl := ih.2.1 vs rest h2
        cases v <;>
          simp [tokensL, tokens, readListF] <;>
          simp [tokens] at hv <;>
          simp [hv, hl]
    · cases ms with
      | nil => simp [tokensM, readObjF]
      | cons m ms' =>
        obtain ⟨k, v⟩ := m
        have h1 : (tokens v).length ≤ f := by
          have := tokens_length_pos v
          simp [tokensM] at h
          omega
        have h2 : (tokensM ms').length + 1 ≤ f := by
          have := tokens_length_pos v
          simp [tokensM] at h
          omega
        have hv := ih.1 v (tokensM ms' ++ Jtok.rbrace :: rest) h1
        have hm := ih.2.2 ms' rest h2
        simp [tokensM, readObjF, hv, hm]

theorem readValue_tokens (v : JsonValue) (rest : List Jtok) :
    readValue (tokens v ++ rest) = some (v, rest) := by
  unfold readValue
  exact (readRound (tokens v ++ rest).length).1 v rest (by simp)

/-! ### Decode / encode round trip for entries -/

theorem decodeStringList_map_str (l : List String) :
    decodeStringList (l.map JsonValue.str) = some l := by
  induction l with
  | nil => simp [decodeStringList]
  | cons s l ih => simp [decodeStringList, ih]

theorem decode_encodeTxnLogEntry (e : TransactionLogEntry) :
    decodeTxnLogEntry (encodeTxnLogEntryJson e) = some e := by
  obtain ⟨id, cs, tst, rt, u, c, tu, ov, nv, sm⟩ := e
  cases tu with
  | none =>
    simp [encodeTxnLogEntryJson, decodeTxnLogEntry, decodeFields, setField,
      defaultEntry]
  | some l =>
    simp [encodeTxnLogEntryJson, decodeTxnLogEntry, decodeFields, setField,
      decodeStringList_map_str l]

/-! ### The inner array loop -/

theorem readEntriesF_ok :
    ∀ (es : List JsonValue) (f : Nat) (rest : List Jtok),
      (∀ v ∈ es, (decodeTxnLogEntry v).isSome = true) →
      (tokensL es).length + 2 ≤ f →
      readEntriesF f (tokensL es ++ Jtok.rbrack :: rest) =
        (es.filterMap decodeTxnLogEntry, .ok rest) := by
  intro es
  induction es with
  | nil =>
    intro f rest _ hf
    obtain ⟨f', rfl⟩ : ∃ f', f = f' + 1 := ⟨f - 1, by omega⟩
    simp [tokensL, readEntriesF, decoderMore]
  | cons v vs ih =>
    intro f rest h hf
    obtain ⟨f', rfl⟩ : ∃ f', f = f' + 1 := ⟨f - 1, by omega⟩
    obtain ⟨e, he⟩ : ∃ e, decodeTxnLogEntry v = some e :=
      Option.isSome_iff_exists.mp (h v (by simp))
    have harr : tokensL (v :: vs) ++ Jtok.rbrack :: rest =
        tokens v ++ (tokensL vs ++ Jtok.rbrack :: rest) := by
      simp [tokensL]
    have hlen : (tokensL vs).length + 2 ≤ f' := by
      have := tokens_length_pos v
      simp [tokensL] at hf
      omega
    rw [harr]
    simp only [readEntriesF, decoderMore_tokens, readValue_tokens, he,
      ih f' rest (fun w hw => h w (by simp [hw])) hlen]
    simp [List.filterMap_cons, he]

theorem readEntriesF_bad :
    ∀ (goods : List JsonValue) (f : Nat) (bad : JsonValue) (rest : List Jtok),
      (∀ v ∈ goods, (decodeTxnLogEntry v).isSome = true) →
      decodeTxnLogEntry bad = none →
      (tokensL goods).length + (tokens bad).length + 1 ≤ f →
      readEntriesF f (tokensL goods ++ tokens bad ++ rest) =
        (goods.filterMap decodeTxnLogEntry,
          .error "unable to decode transaction log entry") := by
  intro goods
  induction goods with
  | nil =>
    intro f bad rest _ hbad hf
    obtain ⟨f', rfl⟩ : ∃ f', f = f' + 1 := ⟨f - 1, by omega⟩
    simp only [tokensL, List.nil_append]
    simp only [readEntriesF, decoderMore_tokens, readValue_tokens, hbad]
    simp
  | cons v vs ih =>
    intro f bad rest h hbad hf
    obtain ⟨f', rfl⟩ : ∃ f', f = f' + 1 := ⟨f - 1, by omega⟩
    obtain ⟨e, he⟩ : ∃ e, decodeTxnLogEntry v = some e :=
      Option.isSome_iff_exists.mp (h v (by simp))
    have harr : tokensL (v :: vs) ++ tokens bad ++ rest =
        tokens v ++ (tokensL vs ++ tokens bad ++ rest) := by
      simp [tokensL]
    have hlen : (tokensL vs).length + (tokens bad).length + 1 ≤ f' := by
      have := tokens_length_pos v
      simp [tokensL] at hf
      omega
    rw [harr]
    simp only [readEntriesF, decoderMore_tokens, readValue_tokens, he,
      ih f' bad rest (fun w hw => h w (by simp [hw])) hbad hlen]
    simp [List.filterMap_cons, he]

/-! ### The outer member loop over classified root members -/

theorem loopF_end (f : Nat) (ts : List Jtok) (dl : String)
    (acc : List TransactionLogContainer) :
    loopF (f + 1) (Jtok.rbrace :: ts) dl acc = ⟨acc ++ [finalCont dl], .ok ()⟩ := by
  simp [loopF, decoderMore]

theorem loopF_step_other (f : Nat) (t : Jtok) (ts : List Jtok) (dl : String)
    (acc : List TransactionLogContainer)
    (h1 : t ≠ Jtok.str "@odata.deltaLink") (h2 : t ≠ Jtok.str "value")
    (h3 : decoderMore (t :: ts) = true) :
    loopF (f + 1) (t :: ts) dl acc = loopF f ts dl acc := by
  simp only [loopF, h3]
  rw [if_pos trivial, if_neg h1, if_neg h2]

theorem loopF_step_delta (f : Nat) (v : JsonValue) (rest : List Jtok) (dl : String)
    (acc : List TransactionLogContainer) :
    loopF (f + 1) (Jtok.str "@odata.deltaLink" :: (tokens v ++ rest)) dl acc
      = loopF f rest (decodeStringInto dl v) acc := by
  simp [loopF, decoderMore, readValue_tokens]

theorem loopF_step_value (f : Nat) (es : List JsonValue) (rest : List Jtok)
    (dl : String) (acc : List TransactionLogContainer)
    (h : ∀ v ∈ es, (decodeTxnLogEntry v).isSome = true) :
    loopF (f + 1) (Jtok.str "value" :: Jtok.lbrack :: (tokensL es ++ Jtok.rbrack :: rest))
        dl acc
      = loopF f rest dl (acc ++ (es.filterMap decodeTxnLogEntry).map recCont) := by
  have hre := readEntriesF_ok es ((tokensL es).length + (rest.length + 1) + 1) rest h
    (by omega)
  simp [loopF, decoderMore, hre]

theorem loop_members :
    ∀ (ms : List RootMember), (∀ m ∈ ms, memberOK m) →
      ∀ (f : Nat) (dl : String) (acc : List TransactionLogContainer),
        (membersTokens ms).length + 2 ≤ f →
        loopF f (membersTokens ms ++ [Jtok.rbrace]) dl acc =
          ⟨acc ++ (deliveredOf ms).map recCont ++ [finalCont (deltaAfter dl ms)],
            .ok ()⟩ := by
  intro ms
  induction ms with
  | nil =>
    intro _ f dl acc hf
    obtain ⟨f1, rfl⟩ : ∃ f1, f = f1 + 1 := ⟨f - 1, by omega⟩
    simp [membersTokens, loopF_end, deliveredOf, deltaAfter]
  | cons m ms ih =>
    intro h f dl acc hf
    have hm := h m (by simp)
    have hms : ∀ m' ∈ ms, memberOK m' := fun m' hm' => h m' (by simp [hm'])
    obtain ⟨f1, rfl⟩ : ∃ f1, f = f1 + 1 := ⟨f - 1, by omega⟩
    cases m with
    | other name v =>
      obtain ⟨hn1, hn2, hsc, hv1, hv2⟩ := hm
      have hshape : membersTokens (RootMember.other name v :: ms) ++ [Jtok.rbrace]
          = Jtok.str name :: (tokens v ++ (membersTokens ms ++ [Jtok.rbrace])) := by
        simp [membersTokens, memberTokens]
      obtain ⟨f2, rfl⟩ : ∃ f2, f1 = f2 + 1 := ⟨f1 - 1, by
        have := tokens_length_pos v
        simp [membersTokens, memberTokens] at hf
        omega⟩
      rw [hshape, loopF_step_other _ _ _ _ _ (by simp [hn2]) (by simp [hn1])
        (by simp [decoderMore])]
      have hstep : loopF (f2 + 1) (tokens v ++ (membersTokens ms ++ [Jtok.rbrace])) dl acc
          = loopF f2 (membersTokens ms ++ [Jtok.rbrace]) dl acc := by
        cases v with
        | obj ms' => simp [isScalar] at hsc
        | arr vs => simp [isScalar] at hsc
        | str s =>
          have hs1 : JsonValue.str s ≠ JsonValue.str "@odata.deltaLink" := hv2
          simp only [tokens, List.cons_append, List.nil_append]
          exact loopF_step_other _ _ _ _ _ (by simpa using hv2) (by simpa using hv1)
            (by simp [decoderMore])
        | num n =>
          simp only [tokens, List.cons_append, List.nil_append]
          exact loopF_step_other _ _ _ _ _ (by simp) (by simp) (by simp [decoderMore])
        | boolean b =>
          simp only [tokens, List.cons_append, List.nil_append]
          exact loopF_step_other _ _ _ _ _ (by simp) (by simp) (by simp [decoderMore])
        | null =>
          simp only [tokens, List.cons_append, List.nil_append]
          exact loopF_step_other _ _ _ _ _ (by simp) (by simp) (by simp [decoderMore])
      rw [hstep]
      rw [ih hms f2 dl acc (by
        have := tokens_length_pos v
        simp [membersTokens, memberTokens] at hf ⊢
        omega)]
      simp [deliveredOf, deltaAfter]
    | delta v =>
      have hshape : membersTokens (RootMember.delta v :: ms) ++ [Jtok.rbrace]
          = Jtok.str "@odata.deltaLink" :: (tokens v ++ (membersTokens ms ++ [Jtok.rbrace])) := by
        simp [membersTokens, memberTokens]
      rw [hshape, loopF_step_delta]
      rw [ih hms f1 (decodeStringInto dl v) acc (by
        have := tokens_length_pos v
        simp [membersTokens, memberTokens] at hf ⊢
        omega)]
      simp [deliveredOf, deltaAfter]
    | value es =>
      have hshape : membersTokens (RootMember.value es :: ms) ++ [Jtok.rbrace]
          = Jtok.str "value" :: Jtok.lbrack ::
              (tokensL es ++ Jtok.rbrack :: (membersTokens ms ++ [Jtok.rbrace])) := by
        simp [membersTokens, memberTokens]
      rw [hshape, loopF_step_value _ _ _ _ _ hm]
      rw [ih hms f1 dl (acc ++ (es.filterMap decodeTxnLogEntry).map recCont) (by
        simp [membersTokens, memberTokens] at hf ⊢
        omega)]
      simp [deliveredOf, deltaAfter]

/-! ### Top-level parse over classified bodies, and auxiliary list facts -/

theorem parse_body (ms : List RootMember) (h : ∀ m ∈ ms, memberOK m) :
    parseTransactionLogs (bodyTokens ms) =
      ⟨(deliveredOf ms).map recCont ++ [finalCont (deltaAfter "" ms)], .ok ()⟩ := by
  show loopF ((membersTokens ms ++ [Jtok.rbrace]).length + 2)
      (membersTokens ms ++ [Jtok.rbrace]) "" [] = _
  rw [loop_members ms h _ "" [] (by simp)]
  simp

theorem membersTokens_append (a b : List RootMember) :
    membersTokens (a ++ b) = membersTokens a ++ membersTokens b := by
  induction a with
  | nil => simp [membersTokens]
  | cons m a ih => simp [membersTokens, ih]

theorem tokensL_append (a b : List JsonValue) :
    tokensL (a ++ b) = tokensL a ++ tokensL b := by
  induction a with
  | nil => simp [tokensL]
  | cons v a ih => simp [tokensL, ih]

theorem deliveredOf_append (a b : List RootMember) :
    deliveredOf (a ++ b) = deliveredOf a ++ deliveredOf b := by
  induction a with
  | nil => simp [deliveredOf]
  | cons m a ih => cases m <;> simp [deliveredOf, ih]

theorem deltaAfter_append (dl : String) (a b : List RootMember) :
    deltaAfter dl (a ++ b) = deltaAfter (deltaAfter dl a) b := by
  induction a generalizing dl with
  | nil => simp [deltaAfter]
  | cons m a ih => cases m <;> simp [deltaAfter, ih]

theorem deliveredOf_no_value (l : List RootMember)
    (h : ∀ m ∈ l, ∀ es, m ≠ RootMember.value es) : deliveredOf l = [] := by
  induction l with
  | nil => simp [deliveredOf]
  | cons m l ih =>
    have hm := h m (by simp)
    cases m with
    | value es => exact absurd rfl (hm es)
    | delta v => exact ih fun m' hm' => h m' (by simp [hm'])
    | other name v => exact ih fun m' hm' => h m' (by simp [hm'])

theorem map_decode_eq_filterMap (es : List JsonValue)
    (h : ∀ v ∈ es, (decodeTxnLogEntry v).isSome = true) :
    es.map decodeTxnLogEntry = (es.filterMap decodeTxnLogEntry).map some := by
  induction es with
  | nil => simp
  | cons v es ih =>
    obtain ⟨e, he⟩ : ∃ e, decodeTxnLogEntry v = some e :=
      Option.isSome_iff_exists.mp (h v (by simp))
    simp [he, List.filterMap_cons, ih fun w hw => h w (by simp [hw])]

theorem filterMap_decode_encode (es : List TransactionLogEntry) :
    (es.map encodeTxnLogEntryJson).filterMap decodeTxnLogEntry = es := by
  induction es with
  | nil => simp
  | cons e es ih => simp [List.filterMap_cons, decode_encodeTxnLogEntry, ih]

/-! ### The failing path of the inner array loop -/

theorem loopF_nil (f : Nat) (dl : String) (acc : List TransactionLogContainer) :
    loopF (f + 1) [] dl acc = ⟨acc, .error "EOF"⟩ := by
  simp [loopF, decoderMore]

theorem loopF_value_fail (f : Nat) (goods : List JsonValue) (bad : JsonValue)
    (x : List Jtok) (dl : String) (acc : List TransactionLogContainer)
    (hg : ∀ v ∈ goods, (decodeTxnLogEntry v).isSome = true)
    (hbad : decodeTxnLogEntry bad = none) :
    loopF (f + 1) (Jtok.str "value" :: Jtok.lbrack :: (tokensL goods ++ tokens bad ++ x))
        dl acc
      = ⟨acc ++ (goods.filterMap decodeTxnLogEntry).map recCont,
          .error "unable to decode transaction log entry"⟩ := by
  have hre := readEntriesF_bad goods
    ((tokensL goods).length + ((tokens bad).length + x.length) + 1) bad x hg hbad (by omega)
  simp only [List.append_assoc] at hre
  simp [loopF, decoderMore, hre]

theorem loop_members_fail :
    ∀ (pre : List RootMember),
      (∀ m ∈ pre, memberOK m ∧ ∀ es, m ≠ RootMember.value es) →
      ∀ (f : Nat) (dl : String) (acc : List TransactionLogContainer)
        (goods : List JsonValue) (bad : JsonValue) (x : List Jtok),
        (∀ v ∈ goods, (decodeTxnLogEntry v).isSome = true) →
        decodeTxnLogEntry bad = none →
        (membersTokens pre).length + 2 ≤ f →
        loopF f (membersTokens pre ++ Jtok.str "value" :: Jtok.lbrack ::
            (tokensL goods ++ tokens bad ++ x)) dl acc
          = ⟨acc ++ (goods.filterMap decodeTxnLogEntry).map recCont,
              .error "unable to decode transaction log entry"⟩ := by
  intro pre
  induction pre with
  | nil =>
    intro _ f dl acc goods bad x hg hbad hf
    obtain ⟨f1, rfl⟩ : ∃ f1, f = f1 + 1 := ⟨f - 1, by omega⟩
    simpa [membersTokens] using loopF_value_fail f1 goods bad x dl acc hg hbad
  | cons m pre ih =>
    intro h f dl acc goods bad x hg hbad hf
    have hm := (h m (by simp)).1
    have hnv := (h m (by simp)).2
    have hpre : ∀ m' ∈ pre, memberOK m' ∧ ∀ es, m' ≠ RootMember.value es :=
      fun m' hm' => h m' (by simp [hm'])
    obtain ⟨f1, rfl⟩ : ∃ f1, f = f1 + 1 := ⟨f - 1, by omega⟩
    cases m with
    | value es => exact absurd rfl (hnv es)
    | delta v =>
      have hshape : membersTokens (RootMember.delta v :: pre) ++ Jtok.str "value" ::
            Jtok.lbrack :: (tokensL goods ++ tokens bad ++ x)
          = Jtok.str "@odata.deltaLink" :: (tokens v ++ (membersTokens pre ++
              Jtok.str "value" :: Jtok.lbrack :: (tokensL goods ++ tokens bad ++ x))) := by
        simp [membersTokens, memberTokens]
      rw [hshape, loopF_step_delta]
      exact ih hpre f1 (decodeStringInto dl v) acc goods bad x hg hbad (by
        have := tokens_length_pos v
        simp [membersTokens, memberTokens] at hf ⊢
        omega)
    | other name v =>
      obtain ⟨hn1, hn2, hsc, hv1, hv2⟩ := hm
      have hshape : membersTokens (RootMember.other name v :: pre) ++ Jtok.str "value" ::
            Jtok.lbrack :: (tokensL goods ++ tokens bad ++ x)
          = Jtok.str name :: (tokens v ++ (membersTokens pre ++
              Jtok.str "value" :: Jtok.lbrack :: (tokensL goods ++ tokens bad ++ x))) := by
        simp [membersTokens, memberTokens]
      obtain ⟨f2, rfl⟩ : ∃ f2, f1 = f2 + 1 := ⟨f1 - 1, by
        have := tokens_length_pos v
        simp [membersTokens, memberTokens] at hf
        omega⟩
      rw [hshape, loopF_step_other _ _ _ _ _ (by simp [hn2]) (by simp [hn1])
        (by simp [decoderMore])]
      have hstep := fun (w : List Jtok) => loopF_step_other f2 (Jtok.str name) w dl acc
      cases v with
      | obj ms' => simp [isScalar] at hsc
      | arr vs => simp [isScalar] at hsc
      | str s =>
        rw [show tokens (JsonValue.str s) ++ (membersTokens pre ++ Jtok.str "value" ::
              Jtok.lbrack :: (tokensL goods ++ tokens bad ++ x))
            = Jtok.str s :: (membersTokens pre ++ Jtok.str "value" ::
              Jtok.lbrack :: (tokensL goods ++ tokens bad ++ x)) from by simp [tokens]]
        rw [loopF_step_other _ _ _ _ _ (by simpa using hv2) (by simpa using hv1)
          (by simp [decoderMore])]
        exact ih hpre f2 dl acc goods bad x hg hbad (by
          simp [membersTokens, memberTokens, tokens] at hf ⊢
          omega)
      | num n =>
        rw [show tokens (JsonValue.num n) ++ (membersTokens pre ++ Jtok.str "value" ::
              Jtok.lbrack :: (tokensL goods ++ tokens bad ++ x))
            = Jtok.num n :: (membersTokens pre ++ Jtok.str "value" ::
              Jtok.lbrack :: (tokensL goods ++ tokens bad ++ x)) from by simp [tokens]]
        rw [loopF_step_other _ _ _ _ _ (by simp) (by simp) (by simp [decoderMore])]
        exact ih hpre f2 dl acc goods bad x hg hbad (by
          simp [membersTokens, memberTokens, tokens] at hf ⊢
          omega)
      | boolean b =>
        rw [show tokens (JsonValue.boolean b) ++ (membersTokens pre ++ Jtok.str "value" ::
              Jtok.lbrack :: (tokensL goods ++ tokens bad ++ x))
            = Jtok.boolean b :: (membersTokens pre ++ Jtok.str "value" ::
              Jtok.lbrack :: (tokensL goods ++ tokens bad ++ x)) from by simp [tokens]]
        rw [loopF_step_other _ _ _ _ _ (by simp) (by simp) (by simp [decoderMore])]
        exact ih hpre f2 dl acc goods bad x hg hbad (by
          simp [membersTokens, memberTokens, tokens] at hf ⊢
          omega)
      | null =>
        rw [show tokens JsonValue.null ++ (membersTokens pre ++ Jtok.str "value" ::
              Jtok.lbrack :: (tokensL goods ++ tokens bad ++ x))
            = Jtok.null :: (membersTokens pre ++ Jtok.str "value" ::
              Jtok.lbrack :: (tokensL goods ++ tokens bad ++ x)) from by simp [tokens]]
        rw [loopF_step_other _ _ _ _ _ (by simp) (by simp) (by simp [decoderMore])]
        exact ih hpre f2 dl acc goods bad x hg hbad (by
          simp [membersTokens, memberTokens, tokens] at hf ⊢
          omega)

/-! ### Concrete response-body fixtures -/

/-- Body shape of the spec scenario:
a JSON object with one collection member holding one Record and a
continuation member ("T2"). -/
def bodyOneRecord : List Jtok :=
  bodyTokens [RootMember.value [JsonValue.obj [("ID", JsonValue.num 1)]],
              RootMember.delta (JsonValue.str "T2")]

/-- Body with no Records and continuation token "T". -/
def bodyNoRecords : List Jtok :=
  bodyTokens [RootMember.value [], RootMember.delta (JsonValue.str "T")]

/-- Body with no Records and no continuation member at all. -/
def bodyEmptyNoDelta : List Jtok :=
  bodyTokens [RootMember.value []]

/-! ### Claims -/

/-- C1: the claim states the continuation token is handed to the poll
loop via the one-shot channel exactly once per successfully parsed body,
even when the token is empty.  The code contradicts this (and its own
comment "Channel waits here until something is written(even an empty
string)"): for the body with no continuation member the parse succeeds
and the final callback carries the empty token, but the callback guards
the channel send with DeltaLink ≠ "", so nothing is ever sent and
`processTransactionLogEntries` never returns (modelled as `none`). -/
theorem c1_empty_token_never_handed_off :
    (parseTransactionLogs bodyEmptyNoDelta).result = .ok () ∧
    (parseTransactionLogs bodyEmptyNoDelta).calls = [finalCont ""] ∧
    (runForwarder (parseTransactionLogs bodyEmptyNoDelta).calls).sends = [] ∧
    processTransactionLogEntries bodyEmptyNoDelta = none :=
  ⟨rfl, rfl, rfl, rfl⟩

set_option maxRecDepth 4000 in
/-- C2: the claim states the bytes written to the Stream Buffer at the
moment it is closed form well-formed JSON of shape \x7b"value":[...]\x7d.
The code never writes the closing brace (it writes "] " and closes), so
on the one-record body the closed stream holds unbalanced JSON; the
zero-record half of the claim does hold (no bytes are written at all). -/
theorem c2_closed_stream_not_wellformed :
    (runForwarder (parseTransactionLogs bodyOneRecord).calls).closed = true ∧
    (runForwarder (parseTransactionLogs bodyOneRecord).calls).out ≠ "" ∧
    balancedDelims (runForwarder (parseTransactionLogs bodyOneRecord).calls).out = false ∧
    (runForwarder (parseTransactionLogs bodyNoRecords).calls).closed = true ∧
    (runForwarder (parseTransactionLogs bodyNoRecords).calls).out = "" :=
  ⟨rfl, by decide, rfl, rfl, rfl⟩

/-- C3 counterexample: a 500 response to a poll-loop GET is not treated as
fatal — the loop processes it exactly as a 200 response and continues with
the delta link after sleeping. -/
theorem c3_counterexample :
    trackCollection "/TransactionLogEntries" [(500, "", "T")]
      = trackCollection "/TransactionLogEntries" [(200, "", "T")] ∧
    trackCollection "/TransactionLogEntries" [(500, "", "T")]
      = [PollEvent.get "/TransactionLogEntries", PollEvent.sleep, PollEvent.get "T"] :=
  ⟨rfl, rfl⟩

/-- C3 amended: the poll loop performs no status validation at all (its
behavior is independent of the response status code), and the only status
check in the client, `ValidateStatusCode`, fatally logs — with the
response status and body in the message — exactly when the status differs
from the single expected code (which also fires on mismatched 2xx codes). -/
theorem c3_amended_status_handling :
    (∀ (url : String) (s1 s2 : Nat) (n d : String) (rs : List (Nat × String × String)),
      trackCollection url ((s1, n, d) :: rs) = trackCollection url ((s2, n, d) :: rs)) ∧
    (∀ (resp : HttpResponse) (expected : Nat) (logFmt : String),
      resp.statusCode ≠ expected →
      validateStatusCode resp expected logFmt
        = some (logFmt ++ "\r\nServer responded with: " ++ resp.status ++ "\r\n" ++ resp.body)) ∧
    (∀ (resp : HttpResponse) (expected : Nat) (logFmt : String),
      resp.statusCode = expected → validateStatusCode resp expected logFmt = none) := by
  refine ⟨fun url s1 s2 n d rs => by simp [trackCollection],
    fun resp e fmt h => by simp [validateStatusCode, h],
    fun resp e fmt h => by simp [validateStatusCode, h]⟩

/-- Witness for C3's amended theorem at concrete inputs. -/
theorem c3_amended_status_handling_witness :
    trackCollection "/logs" [(500, "", "T")] = trackCollection "/logs" [(200, "", "T")] ∧
    validateStatusCode ⟨500, "500 Internal Server Error", "boom"⟩ 200 "version check failed"
      = some ("version check failed\r\nServer responded with: 500 Internal Server Error\r\nboom") ∧
    validateStatusCode ⟨200, "200 OK", "11.8.0"⟩ 200 "version check failed" = none :=
  ⟨c3_amended_status_handling.1 "/logs" 500 200 "" "T" [],
   c3_amended_status_handling.2.1 ⟨500, "500 Internal Server Error", "boom"⟩ 200
     "version check failed" (by decide),
   c3_amended_status_handling.2.2 ⟨200, "200 OK", "11.8.0"⟩ 200 "version check failed" rfl⟩

/-- C4: one poll-loop iteration with a live URL: a non-empty next link is
followed immediately (no sleep event) whatever the delta link is
(next-link priority); an empty next link with a non-empty delta link
sleeps once and then follows the delta link; neither link ends the trace;
and every continuation with a non-empty URL begins by requesting it. -/
theorem c4_poll_loop_iteration (url nextLink deltaLink : String) (status : Nat)
    (rs : List (Nat × String × String)) (hurl : url ≠ "") :
    (nextLink ≠ "" →
      trackCollection url ((status, nextLink, deltaLink) :: rs)
        = PollEvent.get url :: trackCollection nextLink rs) ∧
    (nextLink = "" → deltaLink ≠ "" →
      trackCollection url ((status, nextLink, deltaLink) :: rs)
        = PollEvent.get url :: PollEvent.sleep :: trackCollection deltaLink rs) ∧
    (nextLink = "" → deltaLink = "" →
      trackCollection url ((status, nextLink, deltaLink) :: rs) = [PollEvent.get url]) ∧
    (∀ (u : String) (rs' : List (Nat × String × String)), u ≠ "" →
      ∃ tail, trackCollection u rs' = PollEvent.get u :: tail) := by
  refine ⟨fun hn => ?_, fun hn hd => ?_, fun hn hd => ?_, fun u rs' hu => ?_⟩
  · simp [trackCollection, hurl, hn]
  · simp [trackCollection, hurl, hn, hd]
  · simp [trackCollection, hurl, hn, hd]
  · cases rs' with
    | nil => exact ⟨[], by simp [trackCollection, hu]⟩
    | cons r rs'' =>
      obtain ⟨s, n, d⟩ := r
      exact ⟨if n ≠ "" then trackCollection n rs''
             else if d ≠ "" then PollEvent.sleep :: trackCollection d rs'' else [],
        by simp [trackCollection, hu]⟩

/-- Witness for C4 at the spec's scenario inputs. -/
theorem c4_poll_loop_iteration_witness :
    trackCollection "/p1" [(200, "/p2", "T")] = [PollEvent.get "/p1", PollEvent.get "/p2"] ∧
    trackCollection "/p1" [(200, "", "T3")]
      = [PollEvent.get "/p1", PollEvent.sleep, PollEvent.get "T3"] ∧
    trackCollection "/p1" [(200, "", "")] = [PollEvent.get "/p1"] := by
  have h1 := c4_poll_loop_iteration "/p1" "/p2" "T" 200 [] (by decide)
  have h2 := c4_poll_loop_iteration "/p1" "" "T3" 200 [] (by decide)
  have h3 := c4_poll_loop_iteration "/p1" "" "" 200 [] (by decide)
  refine ⟨?_, ?_, h3.2.2.1 rfl rfl⟩
  · rw [h1.1 (by decide)]; simp [trackCollection]
  · rw [h2.2.1 rfl (by decide)]; simp [trackCollection]

/-- C9: whenever `processTransactionLogEntries` returns, the first
component of its value (the next-link slot) is the empty string, so a poll
loop driven by it can never take the no-sleep pagination branch: after the
GET it either sleeps and follows the delta link or ends the trace. -/
theorem c9_processor_next_link_empty (ts : List Jtok) (p : String × String)
    (h : processTransactionLogEntries ts = some p) :
    p.1 = "" ∧
    ∀ (url : String) (status : Nat) (rs : List (Nat × String × String)), url ≠ "" →
      trackCollection url ((status, p.1, p.2) :: rs)
        = PollEvent.get url ::
            (if p.2 ≠ "" then PollEvent.sleep :: trackCollection p.2 rs else []) := by
  simp only [processTransactionLogEntries] at h
  rcases hs : (runForwarder (parseTransactionLogs ts).calls).sends with _ | ⟨d, rest⟩
  · rw [hs] at h
    simp at h
  · rw [hs] at h
    have hp : ("", d) = p := by simpa using h
    subst hp
    refine ⟨rfl, fun url status rs hurl => ?_⟩
    simp [trackCollection, hurl]

/-- Witness for C9: the no-records body with token "T" makes the
processor return, and the loop then sleeps before following "T". -/
theorem c9_processor_next_link_empty_witness :
    processTransactionLogEntries bodyNoRecords = some ("", "T") ∧
    trackCollection "/logs" [(200, "", "T")]
      = [PollEvent.get "/logs", PollEvent.sleep, PollEvent.get "T"] := by
  have h : processTransactionLogEntries bodyNoRecords = some ("", "T") := rfl
  have h2 := (c9_processor_next_link_empty bodyNoRecords ("", "T") h).2 "/logs" 200 []
    (by decide)
  refine ⟨h, ?_⟩
  rw [h2]
  simp [trackCollection]

theorem parse_cons_lbrace (rest : List Jtok) :
    parseTransactionLogs (Jtok.lbrace :: rest) = loopF (rest.length + 2) rest "" [] := rfl

/-- C5: for a valid body — a root object with one collection member whose
elements all decode, at most arbitrary continuation members, and other
members the parser tolerates (scalar, non-colliding, cf. `memberOK`) —
the Records delivered through the callback are exactly the decoded
elements of the collection field, one per element and in original order,
and the final unit is delivered exactly once, after every Record. -/
theorem c5_order_preservation (pre post : List RootMember) (es : List JsonValue)
    (hpre : ∀ m ∈ pre ++ post, memberOK m ∧ ∀ es', m ≠ RootMember.value es')
    (hes : ∀ v ∈ es, (decodeTxnLogEntry v).isSome = true) :
    es.map decodeTxnLogEntry = (es.filterMap decodeTxnLogEntry).map some ∧
    parseTransactionLogs (bodyTokens (pre ++ RootMember.value es :: post))
      = ⟨(es.filterMap decodeTxnLogEntry).map recCont
          ++ [finalCont (deltaAfter "" (pre ++ RootMember.value es :: post))], .ok ()⟩ := by
  have hall : ∀ m ∈ pre ++ RootMember.value es :: post, memberOK m := by
    intro m hm
    rcases List.mem_append.mp hm with h1 | h2
    · exact (hpre m (List.mem_append.mpr (Or.inl h1))).1
    · rcases List.mem_cons.mp h2 with rfl | h3
      · exact hes
      · exact (hpre m (List.mem_append.mpr (Or.inr h3))).1
  have hdel : deliveredOf (pre ++ RootMember.value es :: post)
      = es.filterMap decodeTxnLogEntry := by
    rw [deliveredOf_append,
      deliveredOf_no_value pre (fun m hm => (hpre m (List.mem_append.mpr (Or.inl hm))).2)]
    simp [deliveredOf,
      deliveredOf_no_value post (fun m hm => (hpre m (List.mem_append.mpr (Or.inr hm))).2)]
  rw [parse_body _ hall, hdel]
  exact ⟨map_decode_eq_filterMap es hes, rfl⟩

/-- Witness for C5 at the spec's scenario body (one Record, no other
members). -/
theorem c5_order_preservation_witness :
    parseTransactionLogs (bodyTokens [RootMember.value [JsonValue.obj [("ID", JsonValue.num 1)]]])
      = ⟨[recCont { defaultEntry with ID := 1 }, finalCont ""], .ok ()⟩ := by
  have h := (c5_order_preservation [] [] [JsonValue.obj [("ID", JsonValue.num 1)]]
    (by simp) (by intro v hv; simp only [List.mem_singleton] at hv; subst hv; rfl)).2
  simpa using h

/-- C6 counterexample: the claim says any interleaved unrelated member is
skipped without interpretation, preserving Records and token.  Two
refutations on the body holding one Record and token "T": an unrelated
member with object value \x7b\x7d makes the parser leave the member loop at
the nested close delimiter and succeed with no Records and an empty token;
an unrelated member with string value "value" aborts the parse entirely.
The same body without the unrelated member yields the Record and "T". -/
theorem c6_counterexample :
    parseTransactionLogs (bodyTokens [RootMember.other "foo" (JsonValue.obj []),
        RootMember.value [JsonValue.obj [("ID", JsonValue.num 1)]],
        RootMember.delta (JsonValue.str "T")])
      = ⟨[finalCont ""], .ok ()⟩ ∧
    parseTransactionLogs (bodyTokens [RootMember.other "foo" (JsonValue.str "value"),
        RootMember.value [JsonValue.obj [("ID", JsonValue.num 1)]],
        RootMember.delta (JsonValue.str "T")])
      = ⟨[], .error "JSON array start delimiter not found"⟩ ∧
    parseTransactionLogs (bodyTokens [RootMember.value [JsonValue.obj [("ID", JsonValue.num 1)]],
        RootMember.delta (JsonValue.str "T")])
      = ⟨[recCont { defaultEntry with ID := 1 }, finalCont "T"], .ok ()⟩ ∧
    (parseTransactionLogs (bodyTokens [RootMember.other "foo" (JsonValue.obj []),
        RootMember.value [JsonValue.obj [("ID", JsonValue.num 1)]],
        RootMember.delta (JsonValue.str "T")])).calls.length = 1 ∧
    (parseTransactionLogs (bodyTokens [RootMember.value [JsonValue.obj [("ID", JsonValue.num 1)]],
        RootMember.delta (JsonValue.str "T")])).calls.length = 2 :=
  ⟨rfl, rfl, rfl, rfl, rfl⟩

/-- C6 amended: the parser tolerates unrelated root members — same
Records and same continuation token, in any position and interleaving —
exactly for members it can scan benignly: scalar values whose name and
value are not the literal strings "value" or "@odata.deltaLink"
(`memberOK`).  For any such body the output is the canonical one, and
inserting a further benign unrelated member anywhere leaves the parse
output unchanged. -/
theorem c6_amended_tolerance (ms : List RootMember) (h : ∀ m ∈ ms, memberOK m) :
    parseTransactionLogs (bodyTokens ms)
      = ⟨(deliveredOf ms).map recCont ++ [finalCont (deltaAfter "" ms)], .ok ()⟩ ∧
    ∀ (ms1 ms2 : List RootMember) (name : String) (v : JsonValue),
      ms = ms1 ++ ms2 → memberOK (RootMember.other name v) →
      parseTransactionLogs (bodyTokens (ms1 ++ RootMember.other name v :: ms2))
        = parseTransactionLogs (bodyTokens ms) := by
  refine ⟨parse_body ms h, fun ms1 ms2 name v hsplit hok => ?_⟩
  subst hsplit
  have hins : ∀ m ∈ ms1 ++ RootMember.other name v :: ms2, memberOK m := by
    intro m hm
    rcases List.mem_append.mp hm with h1 | h2
    · exact h m (List.mem_append.mpr (Or.inl h1))
    · rcases List.mem_cons.mp h2 with rfl | h3
      · exact hok
      · exact h m (List.mem_append.mpr (Or.inr h3))
  rw [parse_body _ h, parse_body _ hins]
  have h1 : deliveredOf (ms1 ++ RootMember.other name v :: ms2)
      = deliveredOf (ms1 ++ ms2) := by
    rw [deliveredOf_append, deliveredOf_append]
    simp [deliveredOf]
  have h2 : deltaAfter "" (ms1 ++ RootMember.other name v :: ms2)
      = deltaAfter "" (ms1 ++ ms2) := by
    rw [deltaAfter_append, deltaAfter_append]
    simp [deltaAfter]
  rw [h1, h2]

/-- Witness for C6's amended theorem: inserting the benign member
"foo": 5 in front of the no-records body does not change the output. -/
theorem c6_amended_tolerance_witness :
    parseTransactionLogs (bodyTokens [RootMember.other "foo" (JsonValue.num 5),
        RootMember.value [], RootMember.delta (JsonValue.str "T")])
      = parseTransactionLogs (bodyTokens [RootMember.value [],
          RootMember.delta (JsonValue.str "T")]) := by
  have hms : ∀ m ∈ [RootMember.value [], RootMember.delta (JsonValue.str "T")],
      memberOK m := by
    intro m hm
    rcases List.mem_cons.mp hm with rfl | hm2
    · intro v hv
      simp at hv
    · rcases List.mem_cons.mp hm2 with rfl | h3
      · trivial
      · simp at h3
  exact (c6_amended_tolerance [RootMember.value [], RootMember.delta (JsonValue.str "T")]
    hms).2 [] _ "foo" (JsonValue.num 5) rfl
    ⟨by decide, by decide, rfl, by simp, by simp⟩

/-- C7: a body whose collection field contains well-decoding elements, one
failing element, and anything after it (with any preceding tolerated or
continuation members and any members after the collection field) aborts
the parse with the record-decode error, after having delivered exactly the
Records preceding the failing element — and no final unit. -/
theorem c7_record_decode_fails (pre post : List RootMember) (goods more : List JsonValue)
    (bad : JsonValue)
    (hpre : ∀ m ∈ pre, memberOK m ∧ ∀ es, m ≠ RootMember.value es)
    (hg : ∀ v ∈ goods, (decodeTxnLogEntry v).isSome = true)
    (hbad : decodeTxnLogEntry bad = none) :
    parseTransactionLogs (bodyTokens (pre ++ RootMember.value (goods ++ bad :: more) :: post))
      = ⟨(goods.filterMap decodeTxnLogEntry).map recCont,
          .error "unable to decode transaction log entry"⟩ := by
  have hshape : bodyTokens (pre ++ RootMember.value (goods ++ bad :: more) :: post)
      = Jtok.lbrace :: (membersTokens pre ++ Jtok.str "value" :: Jtok.lbrack ::
          (tokensL goods ++ tokens bad ++ (tokensL more ++ Jtok.rbrack ::
            (membersTokens post ++ [Jtok.rbrace])))) := by
    simp [bodyTokens, membersTokens_append, membersTokens, memberTokens,
      tokensL_append, tokensL]
  rw [hshape, parse_cons_lbrace]
  rw [loop_members_fail pre hpre _ "" [] goods bad _ hg hbad (by simp)]
  simp

/-- Witness for C7 at the spec's failing scenario: one good Record, then
the element 123 in place of an object. -/
theorem c7_record_decode_fails_witness :
    parseTransactionLogs (bodyTokens [RootMember.value
        [JsonValue.obj [("ID", JsonValue.num 1)], JsonValue.num 123]])
      = ⟨[recCont { defaultEntry with ID := 1 }],
          .error "unable to decode transaction log entry"⟩ := by
  have h := c7_record_decode_fails [] [] [JsonValue.obj [("ID", JsonValue.num 1)]] []
    (JsonValue.num 123) (by simp)
    (by intro v hv; simp only [List.mem_singleton] at hv; subst hv; rfl) rfl
  simpa using h

/-- The token form of the forwarder's outbound framing for a list of
Records: open brace, the collection field name, open bracket, the
marshalled Records, close bracket — and no closing brace, exactly the
bytes `processTransactionLogEntries` writes to the Stream Buffer
(cf. C2). -/
def forwarderFraming (es : List TransactionLogEntry) : List Jtok :=
  Jtok.lbrace :: Jtok.str "value" :: Jtok.lbrack ::
    (tokensL (es.map encodeTxnLogEntryJson) ++ [Jtok.rbrack])

/-- C8: re-parsing the forwarder's framed output delivers exactly the
same Record sequence through the callback, one callback per Record in
order (the parse itself then stops with an end-of-input error, since the
framing lacks the closing brace — no final unit is produced, but the
Record sequence is preserved exactly). -/
theorem c8_reframing_preserves_records (es : List TransactionLogEntry) :
    (parseTransactionLogs (forwarderFraming es)).calls = es.map recCont ∧
    (parseTransactionLogs (forwarderFraming es)).result = .error "EOF" := by
  have hdec : ∀ v ∈ es.map encodeTxnLogEntryJson, (decodeTxnLogEntry v).isSome = true := by
    intro v hv
    rcases List.mem_map.mp hv with ⟨e, _, rfl⟩
    simp [decode_encodeTxnLogEntry]
  have h2 : loopF ((tokensL (es.map encodeTxnLogEntryJson) ++ [Jtok.rbrack]).length + 3 + 1)
      (Jtok.str "value" :: Jtok.lbrack ::
        (tokensL (es.map encodeTxnLogEntryJson) ++ Jtok.rbrack :: []))
      "" [] = ⟨es.map recCont, .error "EOF"⟩ := by
    rw [loopF_step_value _ _ _ _ _ hdec]
    obtain ⟨k, hk⟩ : ∃ k, (tokensL (es.map encodeTxnLogEntryJson) ++ [Jtok.rbrack]).length + 3
        = k + 1 := ⟨_, rfl⟩
    rw [hk, loopF_nil, filterMap_decode_encode]
    simp
  have hgoal : parseTransactionLogs (forwarderFraming es)
      = ⟨es.map recCont, .error "EOF"⟩ := by
    rw [forwarderFraming, parse_cons_lbrace]
    exact h2
  rw [hgoal]
  exact ⟨rfl, rfl⟩

/-- C10: when the value of the continuation-token member fails to decode
as a string (for example a number), the parser ignores the error and
completes the body normally, leaving the remembered continuation token
empty. -/
theorem c10_delta_decode_error_ignored (es : List JsonValue) (v : JsonValue)
    (hes : ∀ w ∈ es, (decodeTxnLogEntry w).isSome = true)
    (hv : ∀ s, v ≠ JsonValue.str s) :
    parseTransactionLogs (bodyTokens [RootMember.value es, RootMember.delta v])
      = ⟨(es.filterMap decodeTxnLogEntry).map recCont ++ [finalCont ""], .ok ()⟩ := by
  have h := parse_body [RootMember.value es, RootMember.delta v] (by
    intro m hm
    rcases List.mem_cons.mp hm with rfl | hm2
    · exact hes
    · rcases List.mem_cons.mp hm2 with rfl | hm3
      · trivial
      · simp at hm3)
  rw [h]
  have hd : decodeStringInto "" v = "" := by
    cases v with
    | str s => exact absurd rfl (hv s)
    | obj ms => rfl
    | arr vs => rfl
    | num n => rfl
    | boolean b => rfl
    | null => rfl
  simp [deliveredOf, deltaAfter, hd]

/-- Witness for C10 on the body with the continuation member holding the
number 123. -/
theorem c10_delta_decode_error_ignored_witness :
    parseTransactionLogs (bodyTokens [RootMember.value [],
        RootMember.delta (JsonValue.num 123)])
      = ⟨[finalCont ""], .ok ()⟩ := by
  have h := c10_delta_decode_error_ignored [] (JsonValue.num 123) (by simp)
    (fun s => by simp)
  simpa using h
